import Mathlib

/-!
Verification of the simvid-python job pipeline against its specification.

The definitions below are shallow embeddings of the Python source:
`app.py` (Flask app, inline execution strategy `generate_video_sync`),
`tasks.py` (RQ worker `generate_video_job`) and `celery_tasks.py`
(Celery worker `generate_video_task`).  Python strings are modelled as
`List Char`, machine floats as exact rationals `ℚ`, `os.path` string
manipulation is modelled componentwise, and the filesystem / MoviePy
operations appear only through the arguments the source code computes
for them.
-/

namespace SimVid

/-- A Python string, modelled as its list of characters. -/
abbrev PyStr := List Char

/-! ## Path handling: `os.path.join`, `os.path.abspath`, `safe_join_path`

`safe_join_path` appears with identical text in `app.py` (line 138),
`tasks.py` (line 68) and `celery_tasks.py` (line 64):

    final_path = os.path.abspath(os.path.join(base_path, *paths))
    base_path = os.path.abspath(base_path)
    if not final_path.startswith(base_path):
        raise ValueError("Invalid path: directory traversal detected")
    return final_path

`os.path.abspath` prepends the working directory to a relative path and
normalizes `.`, `..` and empty components; it does NOT resolve symlinks.
`startswith` is a plain string-prefix test.  Raising is modelled as
`none`. -/

/-- Helper for `splitSlash`: first component and remaining components. -/
def splitSlashP : List Char → PyStr × List PyStr
  | [] => ([], [])
  | c :: cs =>
    let r := splitSlashP cs
    if c = '/' then ([], r.1 :: r.2) else (c :: r.1, r.2)

/-- Split a character list into components at `'/'` (POSIX path split). -/
def splitSlash (cs : List Char) : List PyStr :=
  (splitSlashP cs).1 :: (splitSlashP cs).2

/-- One step of path normalization: drop empty and `.` components, let
`..` cancel the previous component (at the root it is a no-op), keep
everything else.  This is `os.path.normpath` on an absolute path. -/
def normStep (acc : List PyStr) (c : PyStr) : List PyStr :=
  if c = [] ∨ c = ['.'] then acc
  else if c = ['.', '.'] then acc.dropLast
  else acc ++ [c]

/-- Normalize a component list (fold of `normStep`). -/
def normComps (cs : List PyStr) : List PyStr := cs.foldl normStep []

/-- Join components with `'/'` separators (no leading slash). -/
def joinComps : List PyStr → List Char
  | [] => []
  | [c] => c
  | c :: c' :: cs => c ++ '/' :: joinComps (c' :: cs)

/-- Render an absolute path from its normalized components. -/
def renderComps (cs : List PyStr) : PyStr := '/' :: joinComps cs

/-- Make a path absolute against the working directory `cwd`
(the implicit state `os.getcwd()` reads). -/
def absolutize (cwd s : PyStr) : PyStr :=
  if s.head? = some '/' then s else cwd ++ '/' :: s

/-- Model of `os.path.abspath`: absolutize, then normalize.  Symlinks are not
resolved (that would be `os.path.realpath`). -/
def abspath (cwd s : PyStr) : PyStr :=
  renderComps (normComps (splitSlash (absolutize cwd s)))

/-- Model of `os.path.join` for one extra component. -/
def pyJoin (a b : PyStr) : PyStr :=
  if b.head? = some '/' then b
  else if a = [] then b
  else if a.getLast? = some '/' then a ++ b
  else a ++ '/' :: b

/-- Model of `safe_join_path(base_path, *paths)` from `app.py:138` /
`tasks.py:68` / `celery_tasks.py:64`.  `none` models the raised
`ValueError("Invalid path: directory traversal detected")`. -/
def safe_join_path (cwd base : PyStr) (paths : List PyStr) : Option PyStr :=
  if (abspath cwd base).isPrefixOf (abspath cwd (paths.foldl pyJoin base)) then
    some (abspath cwd (paths.foldl pyJoin base))
  else none

/-! ### Path lemmas -/

theorem splitSlash_ne_nil (cs : List Char) : splitSlash cs ≠ [] := by
  simp [splitSlash]

theorem splitSlashP_append (a b : List Char) :
    splitSlashP (a ++ '/' :: b) =
      ((splitSlashP a).1, (splitSlashP a).2 ++ splitSlash b) := by
  induction a with
  | nil => simp [splitSlashP, splitSlash]
  | cons c a ih =>
    by_cases hc : c = '/' <;> simp [splitSlashP, hc, ih]

theorem splitSlash_append_slash (a b : List Char) :
    splitSlash (a ++ '/' :: b) = splitSlash a ++ splitSlash b := by
  simp [splitSlash, splitSlashP_append]

theorem splitSlashP_no_slash (cs : List Char) (h : '/' ∉ cs) :
    splitSlashP cs = (cs, []) := by
  induction cs with
  | nil => simp [splitSlashP]
  | cons c cs ih =>
    have hc : c ≠ '/' := fun hh => h (hh ▸ List.mem_cons_self c cs)
    have hcs : '/' ∉ cs := fun hh => h (List.mem_cons_of_mem c hh)
    simp [splitSlashP, hc, ih hcs]

theorem splitSlash_no_slash (cs : List Char) (h : '/' ∉ cs) :
    splitSlash cs = [cs] := by
  simp [splitSlash, splitSlashP_no_slash cs h]

theorem normComps_append_clean (cs : List PyStr) (w : PyStr)
    (h0 : w ≠ []) (h1 : w ≠ ['.']) (h2 : w ≠ ['.', '.']) :
    normComps (cs ++ [w]) = normComps cs ++ [w] := by
  unfold normComps
  rw [List.foldl_append]
  simp [normStep, h0, h1, h2]

theorem normComps_append_empty (cs : List PyStr) :
    normComps (cs ++ [[]]) = normComps cs := by
  unfold normComps
  rw [List.foldl_append]
  simp [normStep]

theorem joinComps_append_single (A : List PyStr) (w : PyStr) (hA : A ≠ []) :
    joinComps (A ++ [w]) = joinComps A ++ '/' :: w := by
  induction A with
  | nil => exact absurd rfl hA
  | cons c A ih =>
    rcases A with _ | ⟨c', A'⟩
    · simp [joinComps]
    · have := ih (by simp)
      simp only [List.cons_append, joinComps, List.append_eq] at this ⊢
      rw [this]
      simp

theorem renderComps_isPrefixOf (A : List PyStr) (w : PyStr) :
    (renderComps A).isPrefixOf (renderComps (A ++ [w])) = true := by
  rw [ List.isPrefixOf_iff_prefix]
  rcases A with _ | ⟨c, A'⟩
  · simp [renderComps, joinComps]
  · rw [renderComps, renderComps, joinComps_append_single _ _ (by simp)]
    exact List.prefix_cons_inj ('/') |>.mpr (by simp)

theorem eq_concat_of_getLast? {α : Type} (l : List α) (c : α)
    (h : l.getLast? = some c) : ∃ l', l = l' ++ [c] := by
  rcases List.eq_nil_or_concat l with rfl | ⟨l', a, rfl⟩
  · simp at h
  · refine ⟨l', ?_⟩
    rw [List.concat_eq_append] at h ⊢
    rw [List.getLast?_concat] at h
    simp_all

/-- The normalized components of `absolutize cwd s`. -/
def baseComps (cwd s : PyStr) : List PyStr :=
  normComps (splitSlash (absolutize cwd s))

theorem head?_append_ne_nil {α : Type} (a b : List α) (ha : a ≠ []) :
    (a ++ b).head? = a.head? := by
  rcases a with _ | ⟨c, a⟩
  · exact absurd rfl ha
  · simp

/-- Key path lemma: joining one clean component `w` (no slash, nonempty,
not `.` or `..`) onto any base and resolving with `abspath` appends `w`
as one fresh component to the resolved base. -/
theorem abspath_pyJoin_clean (cwd base w : PyStr)
    (hw : '/' ∉ w) (h0 : w ≠ []) (h1 : w ≠ ['.']) (h2 : w ≠ ['.', '.']) :
    abspath cwd (pyJoin base w) = renderComps (baseComps cwd base ++ [w]) := by
  have hwh : w.head? ≠ some '/' := by
    rcases w with _ | ⟨c, w'⟩
    · simp
    · have : c ≠ '/' := fun hc => hw (hc ▸ List.mem_cons_self c w')
      simpa using this
  -- the absolutized join always has the shape  B ++ '/' :: w  or  B' ++ '/' :: w
  -- where the absolutized base is  B  resp.  B' ++ ['/']
  have main : ∀ B : PyStr,
      normComps (splitSlash (B ++ '/' :: w)) =
        normComps (splitSlash B) ++ [w] := by
    intro B
    rw [splitSlash_append_slash, splitSlash_no_slash w hw,
      normComps_append_clean _ _ h0 h1 h2]
  have trail : ∀ B : PyStr,
      normComps (splitSlash (B ++ ['/'])) = normComps (splitSlash B) := by
    intro B
    have : (B ++ ['/'] : PyStr) = B ++ '/' :: ([] : PyStr) := rfl
    rw [this, splitSlash_append_slash]
    have : splitSlash ([] : PyStr) = [[]] := rfl
    rw [this, normComps_append_empty]
  unfold pyJoin
  rw [if_neg hwh]
  by_cases hb : base = []
  · subst hb
    rw [if_pos rfl]
    unfold abspath baseComps absolutize
    rw [if_neg hwh]
    have : (([] : PyStr)).head? ≠ some '/' := by simp
    rw [if_neg this, main]
    have : cwd ++ '/' :: ([] : PyStr) = cwd ++ ['/'] := rfl
    rw [this, trail]
  · rw [if_neg hb]
    by_cases hl : base.getLast? = some '/'
    · rw [if_pos hl]
      obtain ⟨base', rfl⟩ := eq_concat_of_getLast? base '/' hl
      unfold abspath baseComps absolutize
      have hshape : base' ++ ['/'] ++ w = base' ++ '/' :: w := by simp
      by_cases hh : (base' ++ ['/'] : PyStr).head? = some '/'
      · rw [hshape]
        have hh' : (base' ++ '/' :: w).head? = some '/' := by
          rcases base' with _ | ⟨c, b⟩ <;> simp_all
        rw [if_pos hh', if_pos hh, main, trail]
      · rw [hshape]
        have hh' : (base' ++ '/' :: w).head? ≠ some '/' := by
          rcases base' with _ | ⟨c, b⟩ <;> simp_all
        rw [if_neg hh', if_neg hh]
        have e1 : cwd ++ '/' :: (base' ++ '/' :: w) =
            (cwd ++ '/' :: base') ++ '/' :: w := by simp
        have e2 : cwd ++ '/' :: (base' ++ ['/']) =
            (cwd ++ '/' :: base') ++ ['/'] := by simp
        rw [e1, e2, main, trail]
    · rw [if_neg hl]
      unfold abspath baseComps absolutize
      by_cases hh : base.head? = some '/'
      · have hh' : (base ++ '/' :: w).head? = some '/' := by
          rw [head?_append_ne_nil _ _ hb]; exact hh
        rw [if_pos hh', if_pos hh, main]
      · have hh' : (base ++ '/' :: w).head? ≠ some '/' := by
          rw [head?_append_ne_nil _ _ hb]; exact hh
        rw [if_neg hh', if_neg hh]
        have e1 : cwd ++ '/' :: (base ++ '/' :: w) =
            (cwd ++ '/' :: base) ++ '/' :: w := by simp
        rw [e1, main]

/-! ## UUID validation (`is_valid_uuid`, app.py:132)

    uuid_pattern = re.compile(
        r'^[a-f0-9]{8}-[a-f0-9]{4}-[a-f0-9]{4}-[a-f0-9]{4}-[a-f0-9]{12}$',
        re.IGNORECASE)
    return bool(uuid_pattern.match(str(uuid_string)))

With `re.IGNORECASE` the classes accept upper-case hex letters, and a
Python `$` also matches just before one trailing newline, so the
validator additionally accepts a canonical UUID followed by `'\n'`. -/

/-- A hex digit as accepted by `[a-f0-9]` under `re.IGNORECASE`. -/
def isHexChar (c : Char) : Bool :=
  ('0' ≤ c && c ≤ '9') || ('a' ≤ c && c ≤ 'f') || ('A' ≤ c && c ≤ 'F')

/-- Consume exactly `n` hex characters; return the remainder. -/
def hexRun : ℕ → List Char → Option (List Char)
  | 0, rest => some rest
  | n + 1, c :: rest => if isHexChar c then hexRun n rest else none
  | _ + 1, [] => none

/-- Consume one `'-'`. -/
def expectDash : List Char → Option (List Char)
  | '-' :: rest => some rest
  | _ => none

/-- The canonical 8-4-4-4-12 form matched by the regex body. -/
def uuidCore (s : PyStr) : Bool :=
  (hexRun 8 s >>= fun r1 => expectDash r1 >>= fun r2 =>
    hexRun 4 r2 >>= fun r3 => expectDash r3 >>= fun r4 =>
    hexRun 4 r4 >>= fun r5 => expectDash r5 >>= fun r6 =>
    hexRun 4 r6 >>= fun r7 => expectDash r7 >>= fun r8 =>
    hexRun 12 r8 >>= fun r9 =>
    if r9 = [] then some () else none).isSome

/-- Model of `is_valid_uuid` (app.py:132): `re.match` with a `$` anchor, which
also accepts exactly one trailing newline. -/
def is_valid_uuid (s : PyStr) : Bool :=
  uuidCore s || (s.getLast? = some '\n' && uuidCore s.dropLast)

theorem hexRun_decomp (n : ℕ) (s r : List Char) (h : hexRun n s = some r) :
    ∃ p, s = p ++ r ∧ p.length = n ∧ ∀ c ∈ p, isHexChar c = true := by
  induction n generalizing s with
  | zero =>
    refine ⟨[], ?_⟩
    simp only [hexRun] at h
    simp_all
  | succ n ih =>
    rcases s with _ | ⟨c, s'⟩
    · simp [hexRun] at h
    · simp only [hexRun] at h
      by_cases hc : isHexChar c = true
      · rw [if_pos hc] at h
        obtain ⟨p, rfl, hl, hp⟩ := ih s' h
        refine ⟨c :: p, rfl, by simp [hl], ?_⟩
        intro d hd
        rcases List.mem_cons.mp hd with rfl | hd
        · exact hc
        · exact hp d hd
      · rw [if_neg hc] at h; simp at h

theorem expectDash_decomp (s r : List Char) (h : expectDash s = some r) :
    s = '-' :: r := by
  rcases s with _ | ⟨c, s'⟩
  · simp [expectDash] at h
  · by_cases hc : c = '-'
    · subst hc
      simp only [expectDash, Option.some.injEq] at h
      rw [h]
    · unfold expectDash at h
      split at h
      · rename_i heq
        simp at h
        cases heq
        simp_all
      · simp at h

/-- Every character of a string accepted by `uuidCore` is a hex digit
or a dash, and the string has length 36. -/
theorem uuidCore_shape (s : PyStr) (h : uuidCore s = true) :
    s.length = 36 ∧ ∀ c ∈ s, isHexChar c = true ∨ c = '-' := by
  unfold uuidCore at h
  rw [Option.isSome_iff_exists] at h
  obtain ⟨u, h⟩ := h
  simp only [Option.bind_eq_bind, Option.bind_eq_some] at h
  obtain ⟨r1, h1, r2, h2, r3, h3, r4, h4, r5, h5, r6, h6, r7, h7, r8, h8,
    r9, h9, hend⟩ := h
  have h9e : r9 = [] := by
    by_cases hr : r9 = []
    · exact hr
    · rw [if_neg hr] at hend; simp at hend
  obtain ⟨p1, e1, l1, c1⟩ := hexRun_decomp _ _ _ h1
  have e2 := expectDash_decomp _ _ h2
  obtain ⟨p3, e3, l3, c3⟩ := hexRun_decomp _ _ _ h3
  have e4 := expectDash_decomp _ _ h4
  obtain ⟨p5, e5, l5, c5⟩ := hexRun_decomp _ _ _ h5
  have e6 := expectDash_decomp _ _ h6
  obtain ⟨p7, e7, l7, c7⟩ := hexRun_decomp _ _ _ h7
  have e8 := expectDash_decomp _ _ h8
  obtain ⟨p9, e9, l9, c9⟩ := hexRun_decomp _ _ _ h9
  subst h9e
  rw [e9] at e8; rw [e8] at e7; rw [e7] at e6; rw [e6] at e5; rw [e5] at e4
  rw [e4] at e3; rw [e3] at e2; rw [e2] at e1
  subst e1
  constructor
  · simp [l1, l3, l5, l7, l9]
  · intro c hc
    simp only [List.append_nil, List.mem_append, List.mem_cons] at hc
    rcases hc with h' | rfl | h' | rfl | h' | rfl | h' | rfl | h'
    · exact Or.inl (c1 c h')
    · exact Or.inr rfl
    · exact Or.inl (c3 c h')
    · exact Or.inr rfl
    · exact Or.inl (c5 c h')
    · exact Or.inr rfl
    · exact Or.inl (c7 c h')
    · exact Or.inr rfl
    · exact Or.inl (c9 c h')

/-- Every string accepted by `is_valid_uuid` has length at least 36 and
consists of hex digits, dashes and (at most one, trailing) newline. -/
theorem is_valid_uuid_chars (s : PyStr) (h : is_valid_uuid s = true) :
    36 ≤ s.length ∧ ∀ c ∈ s, isHexChar c = true ∨ c = '-' ∨ c = '\n' := by
  unfold is_valid_uuid at h
  rw [Bool.or_eq_true] at h
  rcases h with h | h
  · obtain ⟨hl, hc⟩ := uuidCore_shape s h
    exact ⟨by omega, fun c hc' => (hc c hc').imp_right Or.inl⟩
  · rw [Bool.and_eq_true] at h
    obtain ⟨hlast, hcore⟩ := h
    have hl := of_decide_eq_true hlast
    obtain ⟨l', rfl⟩ := eq_concat_of_getLast? s '\n' hl
    rw [List.dropLast_concat] at hcore
    obtain ⟨hl36, hch⟩ := uuidCore_shape l' hcore
    constructor
    · simp [hl36]
    · intro c hc'
      rcases List.mem_append.mp hc' with h' | h'
      · exact (hch c h').imp_right Or.inl
      · right; right; simpa using h'

/-! ## C10: joining a validated UUID (plus a fixed extension) onto a
base directory with `safe_join_path` can never hit the error branch. -/

/-- C10.  For every working directory, base directory, string `s`
accepted by `is_valid_uuid`, and slash-free extension suffix `ext`
(such as `".mp4"`, `".webm"` or the empty suffix), the guard
`safe_join_path` returns `some` — the `PathViolation` branch is
unreachable, so the pipeline's internal path constructions for
validated session, audio, and job identifiers are total. -/
theorem uuid_join_total (cwd base s ext : PyStr)
    (hs : is_valid_uuid s = true) (hext : '/' ∉ ext) :
    (safe_join_path cwd base [s ++ ext]).isSome = true := by
  have hchars := is_valid_uuid_chars s hs
  have hns : '/' ∉ s ++ ext := by
    intro hm
    rcases List.mem_append.mp hm with hm | hm
    · rcases hchars.2 '/' hm with h' | h' | h'
      · exact absurd h' (by decide)
      · exact absurd h' (by decide)
      · exact absurd h' (by decide)
    · exact hext hm
  have hlen : 36 ≤ (s ++ ext).length := by
    rw [List.length_append]; omega
  have h0 : s ++ ext ≠ [] := by
    intro he; rw [he] at hlen; simp at hlen
  have h1 : s ++ ext ≠ ['.'] := by
    intro he; rw [he] at hlen; simp at hlen
  have h2 : s ++ ext ≠ ['.', '.'] := by
    intro he; rw [he] at hlen; simp at hlen
  unfold safe_join_path
  simp only [List.foldl_cons, List.foldl_nil]
  rw [abspath_pyJoin_clean cwd base _ hns h0 h1 h2]
  have hb : abspath cwd base = renderComps (baseComps cwd base) := rfl
  rw [hb, renderComps_isPrefixOf]
  simp

/-- Witness for `uuid_join_total` at a concrete UUID and base. -/
theorem uuid_join_total_witness :
    is_valid_uuid ("0a1b2c3d-4e5f-6071-8293-a4b5c6d7e8f9".data) = true ∧
      '/' ∉ (".mp4".data) ∧
      (safe_join_path ("/app".data) ("/data/output".data)
        [("0a1b2c3d-4e5f-6071-8293-a4b5c6d7e8f9".data) ++ (".mp4".data)]).isSome
        = true :=
  ⟨by decide, by decide,
    uuid_join_total ("/app".data) ("/data/output".data)
      ("0a1b2c3d-4e5f-6071-8293-a4b5c6d7e8f9".data) (".mp4".data)
      (by decide) (by decide)⟩

/-! ## C2: what `safe_join_path` actually guarantees. -/

/-- C2 (amended).  `safe_join_path` returns exactly the
`abspath`-normalized join whenever the normalized base is a *string*
prefix of it, and raises otherwise.  The comparison is on `os.path.abspath`
output (no symlink resolution, plain character-level prefix), not on
real-path containment. -/
theorem safe_join_path_characterization (cwd base : PyStr)
    (paths : List PyStr) (p : PyStr) :
    safe_join_path cwd base paths = some p ↔
      p = abspath cwd (paths.foldl pyJoin base) ∧
        (abspath cwd base).isPrefixOf p = true := by
  unfold safe_join_path
  split
  · rename_i h
    simp only [Option.some.injEq]
    constructor
    · rintro rfl; exact ⟨rfl, h⟩
    · rintro ⟨rfl, _⟩; rfl
  · rename_i h
    constructor
    · rintro he; exact absurd he (by simp)
    · rintro ⟨rfl, hp⟩; exact absurd hp h

/-- C2 (counterexample).  A sibling directory whose name extends the
base directory's name passes the guard: resolving
`safe_join_path("/data/uploads", "../uploads-evil/x")` yields
`/data/uploads-evil/x`, which is outside `/data/uploads`, yet no
`PathViolation` is raised — the claim that any resolved path merely
sharing a string prefix with the base is rejected is false. -/
theorem safe_join_sibling_counterexample :
    safe_join_path ("/".data) ("/data/uploads".data)
        [("../uploads-evil/x".data)] =
      some ("/data/uploads-evil/x".data) ∧
    ("/data/uploads/".data).isPrefixOf ("/data/uploads-evil/x".data)
      = false := by
  constructor
  · decide
  · decide

/-! ## Compositor scaling (C3)

All three variants compute identically (app.py:743-764, tasks.py:155-177,
celery_tasks.py:130-147):

    img_ratio = img.width / img.height
    video_ratio = width / height
    if img_ratio > video_ratio:
        new_width = width
        new_height = int(width / img_ratio)
    else:
        new_height = height
        new_width = int(height * img_ratio)
    ...
    x = (width - new_width) // 2
    y = (height - new_height) // 2
    background.paste(img, (x, y))   # background: black width×height canvas

`int()` truncates toward zero; on the nonnegative values here that is
the floor, modelled with `ℕ` division on the exact products. -/

/-- The scaled dimensions `(new_width, new_height)` the compositor
computes for a source image `iw×ih` and target `W×H`.  The ratio
comparison `iw/ih > W/H` is `iw*H > W*ih` over positive dimensions. -/
def scaleDims (iw ih W H : ℕ) : ℕ × ℕ :=
  if iw * H > W * ih then (W, W * ih / iw) else (H * iw / ih, H)

/-- The letterbox paste offset `((W-new_w)//2, (H-new_h)//2)`. -/
def letterboxOffset (W H nw nh : ℕ) : ℕ × ℕ :=
  ((W - nw) / 2, (H - nh) / 2)

/-- The dimensions the claim asserts: round-to-nearest of `iw*s`,
`ih*s` for `s = min(W/iw, H/ih)` (stated for positive inputs, where
`round` of a nonnegative rational is a natural number). -/
def claimedScaleDims (iw ih W H : ℕ) : ℤ × ℤ :=
  (round ((iw : ℚ) * min ((W : ℚ) / iw) ((H : ℚ) / ih)),
   round ((ih : ℚ) * min ((W : ℚ) / iw) ((H : ℚ) / ih)))

/-- C3 (counterexample).  A 3×2 source scaled into a 100×100 target:
the code computes `new_height = int(100 / 1.5) = 66`, while the claimed
round-to-nearest formula gives `round(2 * 100/3) = round(66.67) = 67`.
The compositor truncates; it does not round to nearest. -/
theorem scale_round_counterexample :
    scaleDims 3 2 100 100 = (100, 66) ∧
      claimedScaleDims 3 2 100 100 = (100, 67) := by
  constructor
  · decide
  · unfold claimedScaleDims
    push_cast
    have hmin : min ((100 : ℚ) / 3) ((100 : ℚ) / 2) = (100 : ℚ) / 3 :=
      min_eq_left (by norm_num)
    rw [hmin]
    have e1 : (3 : ℚ) * ((100 : ℚ) / 3) = (100 : ℚ) := by norm_num
    have e2 : (2 : ℚ) * ((100 : ℚ) / 3) = (200 : ℚ) / 3 := by norm_num
    rw [e1, e2]
    have r1 : round ((100 : ℚ)) = (100 : ℤ) := by
      exact_mod_cast round_intCast (α := ℚ) 100
    have r2 : round ((200 : ℚ) / 3) = (67 : ℤ) := by
      norm_num [round_eq]
    rw [r1, r2]

/-- C3 (amended).  The compositor scales uniformly by
`s = min(W/iw, H/ih)` to `(⌊iw*s⌋, ⌊ih*s⌋)` — floor (truncation), not
round-to-nearest — never exceeding the target in either dimension, and
letterboxes at offset `((W-new_w)//2, (H-new_h)//2)`, which leaves
balanced margins. -/
theorem scale_letterbox_floor (iw ih W H : ℕ)
    (hiw : 0 < iw) (hih : 0 < ih) (hW : 0 < W) (hH : 0 < H) :
    scaleDims iw ih W H =
      (⌊(iw : ℚ) * min ((W : ℚ) / iw) ((H : ℚ) / ih)⌋₊,
       ⌊(ih : ℚ) * min ((W : ℚ) / iw) ((H : ℚ) / ih)⌋₊) ∧
    (scaleDims iw ih W H).1 ≤ W ∧ (scaleDims iw ih W H).2 ≤ H ∧
    2 * (letterboxOffset W H (scaleDims iw ih W H).1
          (scaleDims iw ih W H).2).1 + (scaleDims iw ih W H).1 ≤ W ∧
    2 * (letterboxOffset W H (scaleDims iw ih W H).1
          (scaleDims iw ih W H).2).2 + (scaleDims iw ih W H).2 ≤ H := by
  have hiwQ : (0 : ℚ) < iw := by exact_mod_cast hiw
  have hihQ : (0 : ℚ) < ih := by exact_mod_cast hih
  have core : scaleDims iw ih W H =
      (⌊(iw : ℚ) * min ((W : ℚ) / iw) ((H : ℚ) / ih)⌋₊,
       ⌊(ih : ℚ) * min ((W : ℚ) / iw) ((H : ℚ) / ih)⌋₊) ∧
      (scaleDims iw ih W H).1 ≤ W ∧ (scaleDims iw ih W H).2 ≤ H := by
    unfold scaleDims
    by_cases hcmp : iw * H > W * ih
    · rw [if_pos hcmp]
      have hlt : (W : ℚ) / iw < (H : ℚ) / ih := by
        rw [div_lt_div_iff₀ hiwQ hihQ]
        have h' := (Nat.cast_lt (α := ℚ)).mpr hcmp
        push_cast at h'
        linarith
      have hmin : min ((W : ℚ) / iw) ((H : ℚ) / ih) = (W : ℚ) / iw :=
        min_eq_left hlt.le
      rw [hmin]
      refine ⟨?_, ?_, ?_⟩
      · have e1 : (iw : ℚ) * ((W : ℚ) / iw) = ((W : ℕ) : ℚ) := by
          field_simp
        have e2 : (ih : ℚ) * ((W : ℚ) / iw) = ((ih * W : ℕ) : ℚ) / (iw : ℕ) := by
          push_cast; ring
        rw [e1, e2, Nat.floor_natCast, Nat.floor_div_nat, Nat.floor_natCast,
          Nat.mul_comm ih W]
      · simp
      · simp only
        exact Nat.div_le_of_le_mul (Nat.le_of_lt hcmp)
    · rw [if_neg hcmp]
      have hle : (H : ℚ) / ih ≤ (W : ℚ) / iw := by
        rw [div_le_div_iff₀ hihQ hiwQ]
        have h' := (Nat.cast_le (α := ℚ)).mpr (Nat.le_of_not_lt hcmp)
        push_cast at h'
        linarith
      have hmin : min ((W : ℚ) / iw) ((H : ℚ) / ih) = (H : ℚ) / ih :=
        min_eq_right hle
      rw [hmin]
      refine ⟨?_, ?_, ?_⟩
      · have e1 : (ih : ℚ) * ((H : ℚ) / ih) = ((H : ℕ) : ℚ) := by
          field_simp
        have e2 : (iw : ℚ) * ((H : ℚ) / ih) = ((iw * H : ℕ) : ℚ) / (ih : ℕ) := by
          push_cast; ring
        rw [e1, e2, Nat.floor_natCast, Nat.floor_div_nat, Nat.floor_natCast,
          Nat.mul_comm iw H]
      · simp only
        have h' : H * iw ≤ ih * W := by
          rw [Nat.mul_comm H iw, Nat.mul_comm ih W]
          exact Nat.le_of_not_lt hcmp
        exact Nat.div_le_of_le_mul h'
      · simp
  obtain ⟨hc, hW', hH'⟩ := core
  refine ⟨hc, hW', hH', ?_, ?_⟩ <;> unfold letterboxOffset <;> simp only <;> omega

/-- Witness for `scale_letterbox_floor` at a 4×3 source and 1920×1080
target (scale factor 360, dimensions 1440×1080). -/
theorem scale_letterbox_floor_witness :
    0 < 4 ∧ 0 < 3 ∧ 0 < 1920 ∧ 0 < 1080 ∧
    (scaleDims 4 3 1920 1080 =
      (⌊(4 : ℚ) * min ((1920 : ℚ) / 4) ((1080 : ℚ) / 3)⌋₊,
       ⌊(3 : ℚ) * min ((1920 : ℚ) / 4) ((1080 : ℚ) / 3)⌋₊) ∧
    (scaleDims 4 3 1920 1080).1 ≤ 1920 ∧
    (scaleDims 4 3 1920 1080).2 ≤ 1080 ∧
    2 * (letterboxOffset 1920 1080 (scaleDims 4 3 1920 1080).1
          (scaleDims 4 3 1920 1080).2).1 + (scaleDims 4 3 1920 1080).1 ≤ 1920 ∧
    2 * (letterboxOffset 1920 1080 (scaleDims 4 3 1920 1080).1
          (scaleDims 4 3 1920 1080).2).2 + (scaleDims 4 3 1920 1080).2 ≤ 1080) :=
  ⟨by decide, by decide, by decide, by decide,
    scale_letterbox_floor 4 3 1920 1080 (by decide) (by decide) (by decide)
      (by decide)⟩

/-! ## EncodeInvoker (C6)

The arguments each variant passes to `write_videofile`:

* `app.py:888-915` (inline): fps=30, codec='libx264', audio_codec='aac',
  bitrate from the full five-tier table;
* `celery_tasks.py:215-250`: fps=30, codec='libx264', audio_codec='aac',
  bitrate from a four-tier table that is missing the 2560×1440→12000k tier;
* `tasks.py:250-258` (RQ worker): fps=30, codec='libx264',
  audio_codec='aac', and NO bitrate argument at all. -/

/-- The encoder arguments a variant computes.  `bitrate = none` means
the argument is not passed (encoder default). -/
structure EncodeParams where
  fps : ℕ
  codec : String
  audio_codec : String
  bitrate : Option String
  deriving DecidableEq

/-- The bitrate table of `app.py:889-899`. -/
def bitrateTier (w h : ℕ) : String :=
  if w * h ≥ 3840 * 2160 then "20000k"
  else if w * h ≥ 2560 * 1440 then "12000k"
  else if w * h ≥ 1920 * 1080 then "8000k"
  else if w * h ≥ 1280 * 720 then "5000k"
  else "2500k"

/-- The bitrate table of `celery_tasks.py:216-224` (no 12000k tier). -/
def celeryBitrateTier (w h : ℕ) : String :=
  if w * h ≥ 3840 * 2160 then "20000k"
  else if w * h ≥ 1920 * 1080 then "8000k"
  else if w * h ≥ 1280 * 720 then "5000k"
  else "2500k"

/-- Modelled from the spec's tier table (§4.4), for refinement
comparison with the code's tables. -/
def claimedBitrateTier (w h : ℕ) : String :=
  if w * h ≥ 3840 * 2160 then "20000k"
  else if w * h ≥ 2560 * 1440 then "12000k"
  else if w * h ≥ 1920 * 1080 then "8000k"
  else if w * h ≥ 1280 * 720 then "5000k"
  else "2500k"

/-- The `write_videofile` arguments in `generate_video_sync` (app.py:905). -/
def sync_encode_params (w h : ℕ) : EncodeParams :=
  ⟨30, "libx264", "aac", some (bitrateTier w h)⟩

/-- The `write_videofile` arguments in `generate_video_task`
(celery_tasks.py:240). -/
def celery_encode_params (w h : ℕ) : EncodeParams :=
  ⟨30, "libx264", "aac", some (celeryBitrateTier w h)⟩

/-- The `write_videofile` arguments in `generate_video_job` (tasks.py:250):
no bitrate argument is passed. -/
def rq_encode_params : EncodeParams :=
  ⟨30, "libx264", "aac", none⟩

/-- C6 (counterexample).  At the whitelisted resolution 1920×1080 the
RQ worker passes no bitrate at all, and at whitelisted 2560×1440 the
Celery worker selects 8000k where the claimed table says 12000k — so
the claim that both execution strategies use the tier table fails. -/
theorem bitrate_params_counterexample :
    rq_encode_params.bitrate = none ∧
    claimedBitrateTier 1920 1080 = "8000k" ∧
    rq_encode_params.bitrate ≠ some (claimedBitrateTier 1920 1080) ∧
    (celery_encode_params 2560 1440).bitrate = some "8000k" ∧
    claimedBitrateTier 2560 1440 = "12000k" ∧
    (celery_encode_params 2560 1440).bitrate ≠
      some (claimedBitrateTier 2560 1440) := by
  refine ⟨rfl, by decide, by decide, by decide, by decide, by decide⟩

/-- C6 (amended).  All three variants encode with frame rate 30, video
codec libx264 (H.264) and audio codec AAC; the inline strategy's
bitrate follows the claimed tier table exactly; the Celery worker
follows it except that resolutions in the 12000k tier fall through to
8000k; the RQ worker passes no explicit bitrate. -/
theorem encode_params_divergence :
    (∀ w h, sync_encode_params w h =
      ⟨30, "libx264", "aac", some (claimedBitrateTier w h)⟩) ∧
    rq_encode_params = ⟨30, "libx264", "aac", none⟩ ∧
    (∀ w h, celery_encode_params w h =
        ⟨30, "libx264", "aac", some (claimedBitrateTier w h)⟩ ∨
      (celery_encode_params w h = ⟨30, "libx264", "aac", some "8000k"⟩ ∧
        claimedBitrateTier w h = "12000k")) := by
  refine ⟨fun w h => rfl, rfl, fun w h => ?_⟩
  unfold celery_encode_params celeryBitrateTier claimedBitrateTier
  by_cases h1 : w * h ≥ 3840 * 2160
  · left; simp [h1]
  · by_cases h2 : w * h ≥ 2560 * 1440
    · right
      have h3 : w * h ≥ 1920 * 1080 := by omega
      constructor <;> simp [h1, h2, h3]
    · left
      simp [h1, h2]

/-! ## Artifact naming (C1)

Queued success result (`tasks.py:274-283`, likewise
`celery_tasks.py:264-271`):

    output_path = safe_join_path(OUTPUT_FOLDER, f"{job_id}.mp4")
    result = {'video_id': job_id, ..., 'download_url': f'/download/{job_id}', ...}

Inline success response (`app.py:883-934`):

    output_id = str(uuid.uuid4())          # fresh UUID, not job_id
    output_filename = f"{output_id}.mp4"
    return jsonify({'video_id': output_id,
                    'download_url': f'/download/{output_id}',
                    'job_id': job_id, ...}) -/

/-- A success result as the queued workers build it. -/
structure QueuedResult where
  video_id : String
  artifact_name : String
  download_url : String
  deriving DecidableEq

/-- The `generate_video_job` success result (tasks.py:274-283). -/
def rq_success_result (job_id : String) : QueuedResult :=
  ⟨job_id, job_id ++ ".mp4", "/download/" ++ job_id⟩

/-- The `generate_video_task` success result (celery_tasks.py:264-271). -/
def celery_success_result (job_id : String) : QueuedResult :=
  ⟨job_id, job_id ++ ".mp4", "/download/" ++ job_id⟩

/-- The inline success response of `generate_video_sync`
(app.py:928-934); `output_id` is the value of the fresh
`str(uuid.uuid4())` drawn at app.py:884. -/
structure SyncResponse where
  video_id : String
  artifact_name : String
  download_url : String
  job_id : String
  deriving DecidableEq

def sync_success_response (job_id output_id : String) : SyncResponse :=
  ⟨output_id, output_id ++ ".mp4", "/download/" ++ output_id, job_id⟩

/-- C1 (counterexample).  Under the inline strategy the artifact is
named after the freshly generated `output_id`, not the `job_id` used
for progress tracking: with `job_id = 1111…` and a fresh
`output_id = 2222…` the success result's `video_id`, artifact name and
`download_url` all disagree with `job_id`. -/
theorem sync_artifact_name_counterexample :
    (sync_success_response "11111111-1111-1111-1111-111111111111"
        "22222222-2222-2222-2222-222222222222").job_id =
      "11111111-1111-1111-1111-111111111111" ∧
    (sync_success_response "11111111-1111-1111-1111-111111111111"
        "22222222-2222-2222-2222-222222222222").video_id ≠
      "11111111-1111-1111-1111-111111111111" ∧
    (sync_success_response "11111111-1111-1111-1111-111111111111"
        "22222222-2222-2222-2222-222222222222").artifact_name ≠
      "11111111-1111-1111-1111-111111111111" ++ ".mp4" ∧
    (sync_success_response "11111111-1111-1111-1111-111111111111"
        "22222222-2222-2222-2222-222222222222").download_url ≠
      "/download/" ++ "11111111-1111-1111-1111-111111111111" := by
  refine ⟨rfl, by decide, by decide, by decide⟩

/-- C1 (amended).  Under the queued strategies (RQ and Celery) the
artifact name, `video_id` and `download_url` are all derived from
`job_id`; under the inline strategy they are derived from a freshly
generated `output_id` instead, with `job_id` returned as a separate
field of the response. -/
theorem artifact_naming_amended (job_id output_id : String) :
    rq_success_result job_id =
      ⟨job_id, job_id ++ ".mp4", "/download/" ++ job_id⟩ ∧
    celery_success_result job_id =
      ⟨job_id, job_id ++ ".mp4", "/download/" ++ job_id⟩ ∧
    sync_success_response job_id output_id =
      ⟨output_id, output_id ++ ".mp4", "/download/" ++ output_id, job_id⟩ :=
  ⟨rfl, rfl, rfl⟩

/-! ## Corrupt-image failure policy (C5)

A batch is a list of booleans: `true` = the image decodes, `false` = it
is corrupt/unreadable.

* `tasks.py:141-205`: per-image `try/except ... continue`, so corrupt
  images are skipped; the job errors when no images were found or when
  `len(clips) == 0` afterwards, and otherwise completes with the
  surviving clips.
* `app.py:726-786` (`generate_video_sync`): the per-image loop has no
  per-image exception handler, so the first unreadable image raises out
  of the loop into the outer `except` at app.py:942 and the whole job
  errors. -/

/-- Terminal outcome of the image-processing phase. -/
inductive BatchOutcome where
  | completed (clips : ℕ)
  | failed
  deriving DecidableEq

/-- Image-batch processing of `generate_video_job` (tasks.py:141-205). -/
def tasks_process_batch (imgs : List Bool) : BatchOutcome :=
  if imgs.length = 0 then .failed
  else if imgs.count true = 0 then .failed
  else .completed (imgs.count true)

/-- Image-batch processing of `generate_video_sync` (app.py:726-786):
no per-image handler, an unreadable image aborts the job. -/
def app_process_batch (imgs : List Bool) : BatchOutcome :=
  if imgs.length = 0 then .failed
  else if imgs.all id then .completed imgs.length
  else .failed

/-- C5 (counterexample).  A batch of five images with one corrupt: the
queued worker completes using the remaining four, but the inline
strategy fails the whole job — contradicting the claim that under both
strategies a corrupt image is skipped without failing the job. -/
theorem inline_corrupt_image_counterexample :
    tasks_process_batch [true, true, false, true, true] =
      .completed 4 ∧
    app_process_batch [true, true, false, true, true] = .failed := by
  constructor
  · decide
  · decide

/-- C5 (amended).  The queued worker skips corrupt images and reaches a
terminal error exactly when zero images survive, completing with the
`N-k` survivors otherwise; the inline strategy completes only when
every image of a nonempty batch is readable, and reaches a terminal
error as soon as any image is corrupt. -/
theorem batch_failure_policy_amended (imgs : List Bool) :
    (tasks_process_batch imgs = .completed (imgs.count true) ↔
      0 < imgs.count true) ∧
    (tasks_process_batch imgs = .failed ↔ imgs.count true = 0) ∧
    (app_process_batch imgs = .completed imgs.length ↔
      imgs ≠ [] ∧ false ∉ imgs) ∧
    (app_process_batch imgs = .failed ↔ imgs = [] ∨ false ∈ imgs) := by
  have hcl : imgs.count true ≤ imgs.length := List.count_le_length _ _
  have hlen0 : imgs.length = 0 ↔ imgs = [] := List.length_eq_zero
  have hall : imgs.all id = true ↔ false ∉ imgs := by
    rw [List.all_eq_true]
    constructor
    · intro h hf
      have := h false hf
      simp at this
    · intro h b hb
      rcases b with _ | _
      · exact absurd hb h
      · rfl
  refine ⟨?_, ?_, ?_, ?_⟩
  · unfold tasks_process_batch
    by_cases h0 : imgs.length = 0
    · rw [if_pos h0]
      have : imgs = [] := hlen0.mp h0
      subst this
      simp
    · rw [if_neg h0]
      by_cases hc : imgs.count true = 0
      · rw [if_pos hc]
        constructor
        · intro h; exact absurd h (by simp)
        · intro h; omega
      · rw [if_neg hc]
        constructor
        · intro _; omega
        · intro _; rfl
  · unfold tasks_process_batch
    by_cases h0 : imgs.length = 0
    · rw [if_pos h0]
      have : imgs = [] := hlen0.mp h0
      subst this
      simp
    · rw [if_neg h0]
      by_cases hc : imgs.count true = 0
      · rw [if_pos hc]; simp [hc]
      · rw [if_neg hc]
        constructor
        · intro h; exact absurd h (by simp)
        · intro h; exact absurd h hc
  · unfold app_process_batch
    by_cases h0 : imgs.length = 0
    · rw [if_pos h0]
      have : imgs = [] := hlen0.mp h0
      subst this
      simp
    · rw [if_neg h0]
      by_cases ha : imgs.all id
      · rw [if_pos ha]
        refine iff_of_true rfl ⟨?_, hall.mp ha⟩
        intro h
        exact h0 (by simp [h])
      · rw [if_neg ha]
        constructor
        · intro h; exact absurd h (by simp)
        · rintro ⟨_, hnf⟩
          exact absurd (hall.mpr hnf) ha
  · unfold app_process_batch
    by_cases h0 : imgs.length = 0
    · rw [if_pos h0]
      have : imgs = [] := hlen0.mp h0
      subst this
      simp
    · rw [if_neg h0]
      by_cases ha : imgs.all id
      · rw [if_pos ha]
        constructor
        · intro h; exact absurd h (by simp)
        · rintro (h | h)
          · rw [hlen0] at h0; exact absurd h h0
          · exact absurd h (hall.mp ha)
      · rw [if_neg ha]
        simp only [true_iff]
        right
        by_contra hnf
        exact ha (hall.mpr hnf)

/-! ## Image ordering (C7)

* `tasks.py:87-100` (`get_image_files`): filters by extension suffix and
  then `images.sort()` — lexicographic filename order.
* `celery_tasks.py:97-101`: `sorted([...])` — likewise filename order.
* `app.py:711-718` (`generate_video_sync`): filters and then
  `sorted(image_files, key=lambda x: os.path.getctime(x))` — file
  creation time, i.e. upload/insertion order.

Python's `sort`/`sorted` are stable; they are modelled by a stable
insertion sort over a boolean "≤" comparator. -/

/-- A directory entry as `os.listdir` + `os.path.getctime` expose it. -/
structure DirEntry where
  name : PyStr
  ctime : ℕ
  deriving DecidableEq

/-- Insert into a sorted list, before the first element `a` is `≤` to
(stable for equal keys when folding from the right). -/
def insertLe {α : Type} (le : α → α → Bool) (a : α) : List α → List α
  | [] => [a]
  | b :: bs => if le a b then a :: b :: bs else b :: insertLe le a bs

/-- Stable insertion sort (models Python's stable `sorted`). -/
def sortLe {α : Type} (le : α → α → Bool) (l : List α) : List α :=
  l.foldr (insertLe le) []

/-- Lexicographic order on code points — Python string `<=`. -/
def lexLe : PyStr → PyStr → Bool
  | [], _ => true
  | _ :: _, [] => false
  | a :: as, b :: bs => if a = b then lexLe as bs else decide (a < b)

/-- ctime comparison used as the `key=` sort in app.py:718. -/
def ctimeLe (a b : DirEntry) : Bool := decide (a.ctime ≤ b.ctime)

/-- Lowercasing, for `filename.lower()` / `.rsplit('.',1)[1].lower()`. -/
def lowerStr (s : PyStr) : PyStr := s.map Char.toLower

/-- Image test of tasks.py:95: suffix match against the extension tuple. -/
def tasksIsImage (name : PyStr) : Bool :=
  [".png".data, ".jpg".data, ".jpeg".data, ".gif".data, ".bmp".data].any
    (fun e => e.isSuffixOf (lowerStr name))

/-- The characters after the last `'.'` (Python `rsplit('.', 1)[1]`). -/
def afterLastDot (s : PyStr) : PyStr :=
  ((s.reverse).takeWhile (fun c => c ≠ '.')).reverse

/-- Model of `allowed_file` (app.py:129) with `ALLOWED_IMAGE_EXTENSIONS`. -/
def allowed_file (name : PyStr) : Bool :=
  decide ('.' ∈ name) &&
    ["png".data, "jpg".data, "jpeg".data, "gif".data, "bmp".data,
      "webp".data].contains (lowerStr (afterLastDot name))

/-- Ordering of `get_image_files` (tasks.py:87-100): names filtered by
extension, sorted lexicographically. -/
def tasks_get_image_files (entries : List DirEntry) : List PyStr :=
  sortLe lexLe ((entries.map DirEntry.name).filter tasksIsImage)

/-- Image list of `generate_video_sync` (app.py:711-718): filtered
entries sorted by creation time, then their names taken. -/
def app_get_image_files (entries : List DirEntry) : List PyStr :=
  (sortLe ctimeLe (entries.filter (fun e => allowed_file e.name))).map
    DirEntry.name

theorem insertLe_of_le {α : Type} (le : α → α → Bool) (a : α) (l : List α)
    (h : ∀ b ∈ l.head?, le a b = true) : insertLe le a l = a :: l := by
  rcases l with _ | ⟨b, bs⟩
  · rfl
  · have hb : le a b = true := h b rfl
    simp [insertLe, hb]

/-- Insertion-sorting a list already sorted by `le` leaves it unchanged. -/
theorem sortLe_of_sorted {α : Type} (le : α → α → Bool) (l : List α)
    (h : List.Chain' (fun a b => le a b = true) l) : sortLe le l = l := by
  induction l with
  | nil => rfl
  | cons a l ih =>
    have hl : List.Chain' (fun a b => le a b = true) l := h.tail
    have hstep : sortLe le (a :: l) = insertLe le a (sortLe le l) := rfl
    rw [hstep, ih hl, insertLe_of_le]
    exact fun b hb => List.chain'_cons'.mp h |>.1 b hb

theorem chain'_insertLe {α : Type} (le : α → α → Bool)
    (htot : ∀ a b, le a b = true ∨ le b a = true) (a : α) (l : List α)
    (h : List.Chain' (fun x y => le x y = true) l) :
    List.Chain' (fun x y => le x y = true) (insertLe le a l) := by
  induction l with
  | nil => simp [insertLe]
  | cons b bs ih =>
    by_cases hab : le a b = true
    · have he : insertLe le a (b :: bs) = a :: b :: bs := by
        simp [insertLe, hab]
      rw [he]
      refine h.cons' ?_
      intro y hy
      simp at hy
      subst hy
      exact hab
    · have hba : le b a = true := (htot a b).resolve_left hab
      have he : insertLe le a (b :: bs) = b :: insertLe le a bs := by
        simp [insertLe, hab]
      rw [he]
      refine (ih h.tail).cons' ?_
      intro y hy
      rcases bs with _ | ⟨c, cs⟩
      · simp [insertLe] at hy
        subst hy
        exact hba
      · simp only [insertLe] at hy
        by_cases hac : le a c = true
        · rw [if_pos hac] at hy
          simp at hy
          subst hy
          exact hba
        · rw [if_neg hac] at hy
          simp at hy
          subst hy
          exact (List.chain'_cons.mp h).1

theorem lexLe_total (a b : PyStr) : lexLe a b = true ∨ lexLe b a = true := by
  induction a generalizing b with
  | nil => left; rfl
  | cons x xs ih =>
    rcases b with _ | ⟨y, ys⟩
    · right; rfl
    · by_cases hxy : x = y
      · subst hxy
        rcases ih ys with h | h
        · left; simp [lexLe, h]
        · right; simp [lexLe, h]
      · have hyx : y ≠ x := fun h => hxy h.symm
        rcases lt_trichotomy x y with hv | hv | hv
        · left; simp [lexLe, hxy, hv]
        · exact absurd hv hxy
        · right; simp [lexLe, hyx, hv]

theorem ctimeLe_trans_of_chain (entries : List DirEntry)
    (h : List.Chain' (fun a b => a.ctime < b.ctime) entries) :
    List.Chain' (fun a b => ctimeLe a b = true)
      (entries.filter (fun e => allowed_file e.name)) := by
  haveI : IsTrans DirEntry (fun a b => a.ctime < b.ctime) :=
    ⟨fun _ _ _ h1 h2 => Nat.lt_trans h1 h2⟩
  have hp : List.Pairwise (fun a b : DirEntry => a.ctime < b.ctime) entries :=
    List.chain'_iff_pairwise.mp h
  have hp2 := hp.filter (fun e => allowed_file e.name)
  have hp3 : List.Pairwise (fun a b : DirEntry => ctimeLe a b = true)
      (entries.filter (fun e => allowed_file e.name)) := by
    refine hp2.imp ?_
    intro a b hab
    exact decide_eq_true (Nat.le_of_lt hab)
  exact List.Pairwise.chain' hp3

/-- C7 (counterexample).  Two images uploaded in the order `b.jpg`
(ctime 1) then `a.jpg` (ctime 2): the queued worker composes them in
filename order `a.jpg, b.jpg`, not in the insertion/upload order
`b.jpg, a.jpg` — refuting the claim for the queued strategy. -/
theorem filename_sort_counterexample :
    tasks_get_image_files [⟨"b.jpg".data, 1⟩, ⟨"a.jpg".data, 2⟩] =
      ["a.jpg".data, "b.jpg".data] ∧
    [(⟨"b.jpg".data, 1⟩ : DirEntry), ⟨"a.jpg".data, 2⟩].map DirEntry.name =
      ["b.jpg".data, "a.jpg".data] ∧
    tasks_get_image_files [⟨"b.jpg".data, 1⟩, ⟨"a.jpg".data, 2⟩] ≠
      [(⟨"b.jpg".data, 1⟩ : DirEntry), ⟨"a.jpg".data, 2⟩].map DirEntry.name := by
  refine ⟨by decide, by decide, by decide⟩

/-- C7 (amended).  The inline strategy does order images by file
creation time — a listing whose ctimes are strictly increasing (i.e.
given in upload order) is kept in that order; the queued workers
instead return the filenames in lexicographic sorted order. -/
theorem image_order_divergence (entries : List DirEntry)
    (hmono : List.Chain' (fun a b => a.ctime < b.ctime) entries) :
    app_get_image_files entries =
      (entries.filter (fun e => allowed_file e.name)).map DirEntry.name ∧
    List.Chain' (fun a b => lexLe a b = true)
      (tasks_get_image_files entries) := by
  constructor
  · unfold app_get_image_files
    rw [sortLe_of_sorted ctimeLe _ (ctimeLe_trans_of_chain entries hmono)]
  · unfold tasks_get_image_files sortLe
    generalize (entries.map DirEntry.name).filter tasksIsImage = names
    induction names with
    | nil => simp
    | cons a l ih =>
      exact chain'_insertLe lexLe lexLe_total a _ ih

/-- Witness for `image_order_divergence` on a concrete two-image
upload. -/
theorem image_order_divergence_witness :
    List.Chain' (fun a b : DirEntry => a.ctime < b.ctime)
      [⟨"b.jpg".data, 1⟩, ⟨"a.jpg".data, 2⟩] ∧
    (app_get_image_files [⟨"b.jpg".data, 1⟩, ⟨"a.jpg".data, 2⟩] =
      ([(⟨"b.jpg".data, 1⟩ : DirEntry), ⟨"a.jpg".data, 2⟩].filter
        (fun e => allowed_file e.name)).map DirEntry.name ∧
    List.Chain' (fun a b => lexLe a b = true)
      (tasks_get_image_files [⟨"b.jpg".data, 1⟩, ⟨"a.jpg".data, 2⟩])) :=
  ⟨List.chain'_pair.mpr (by decide),
    image_order_divergence [⟨"b.jpg".data, 1⟩, ⟨"a.jpg".data, 2⟩]
      (List.chain'_pair.mpr (by decide))⟩

/-! ## AudioSynchronizer (C4)

Durations are exact rationals.  A trim record `{start, end}` is read
from the `_trim.json` file; `start` arrives through `.get('start', 0)
or 0` (so it is a number), `end` may be `null`.

* `app.py:799-848` clamps `start` into `[0, actual_duration]` and `end`
  into `[start, actual_duration]`, applies the subclip only when
  `start > 0 or (end is not None and end < actual_duration)`, and
  inside that branch runs `subclipped(start, end)` when the clamped
  `end` is truthy, else `subclipped(start)` when `start > 0`.
* `celery_tasks.py:184-198` performs NO clamping: when
  `start > 0 or end` it calls
  `subclipped(start, end if end else duration)` with the raw values
  (any exception is swallowed, leaving the audio untrimmed).
* Both then match the (possibly trimmed) duration `Ta` to the video
  duration `Tv`: truncate when `Ta > Tv`, loop
  `int(Tv/Ta) + 1` repetitions truncated to exactly `Tv` when
  `Ta < Tv`, and use as-is when equal (app.py:857-865,
  celery_tasks.py:200-205). -/

/-- A persisted trim record. -/
structure TrimInfo where
  start : ℚ
  stop : Option ℚ

/-- Clamp `start_time = min(max(0, start_time), actual_duration)`
(app.py:811). -/
def clampedStart (Ta s : ℚ) : ℚ := min (max 0 s) Ta

/-- Clamp `end_time = min(max(start_time, end_time), actual_duration)`
(app.py:815); `None` stays `None`. -/
def clampedStop (Ta sClamped : ℚ) (stop : Option ℚ) : Option ℚ :=
  stop.map (fun e => min (max sClamped e) Ta)

/-- Truthiness of `end_time is not None and end_time < actual_duration`. -/
def stopBelow (Ta : ℚ) : Option ℚ → Bool
  | none => false
  | some v => decide (v < Ta)

/-- Python truthiness of an optional float (`None` and `0` are falsy). -/
def stopTruthy : Option ℚ → Bool
  | none => false
  | some v => decide (v ≠ 0)

/-- The subclip window `generate_video_sync` actually applies
(app.py:810-845), given a trim record and a loaded audio of (truthy)
duration `Ta`; `none` means the audio is left untrimmed.
`(s, some v)` models `subclipped(s, v)` and `(s, none)` models
`subclipped(s)` (trim to the end). -/
def app_trim_window (Ta : ℚ) (t : TrimInfo) : Option (ℚ × Option ℚ) :=
  if decide (0 < clampedStart Ta t.start) ||
      stopBelow Ta (clampedStop Ta (clampedStart Ta t.start) t.stop) then
    if stopTruthy (clampedStop Ta (clampedStart Ta t.start) t.stop) then
      some (clampedStart Ta t.start,
        clampedStop Ta (clampedStart Ta t.start) t.stop)
    else if 0 < clampedStart Ta t.start then
      some (clampedStart Ta t.start, none)
    else none
  else none

/-- The subclip window `generate_video_task` passes to `subclipped`
(celery_tasks.py:188-198): the raw stored values, unclamped; the end
falls back to the full duration when falsy. -/
def celery_trim_window (Ta : ℚ) (t : TrimInfo) : Option (ℚ × ℚ) :=
  if decide (0 < t.start) || stopTruthy t.stop then
    some (t.start,
      match t.stop with
      | some v => if v ≠ 0 then v else Ta
      | none => Ta)
  else none

/-- Matching the (possibly trimmed) audio duration `ta` to the video
duration `tv` (app.py:857-865 / celery_tasks.py:200-205 /
tasks.py:224-232).  Returns the loop count passed to
`concatenate_audioclips` (if any) and the final audio duration. -/
def matchAudioToVideo (ta tv : ℚ) : Option ℤ × ℚ :=
  if ta > tv then (none, tv)
  else if ta < tv then (some (⌊tv / ta⌋ + 1), tv)
  else (none, ta)

/-- C4 (counterexample).  A stored trim `{start: 5, end: 100}` on a
30-second audio asset: the Celery synchronizer passes the window
`(5, 100)` to the trim operation with `100 > 30` unclamped — the claim
that the synchronizer first clamps `end` into
`[start, actual_duration]` is false for this cited implementation. -/
theorem celery_trim_unclamped_counterexample :
    celery_trim_window 30 ⟨5, some 100⟩ = some (5, 100) ∧
      ¬ ((100 : ℚ) ≤ 30) := by
  constructor
  · rfl
  · norm_num

/-- C4 (amended).  The inline synchronizer behaves as claimed: the
clamps land `start` in `[0, Ta]` and `end` in `[start, Ta]`, any
applied trim window starts at the clamped start and differs from the
full asset; and the shared duration-matching step truncates a longer
audio to `Tv`, loops a shorter one `⌊Tv/Ta⌋+1` times (which covers
`Tv`, so truncating the concatenation yields exactly `Tv`), and keeps
an equal one as-is.  (The Celery variant skips the clamping, as the
counterexample shows.) -/
theorem audio_sync_amended (Ta ta tv : ℚ) (t : TrimInfo)
    (hTa : 0 < Ta) (hta : 0 < ta) (htv : 0 < tv) :
    (0 ≤ clampedStart Ta t.start ∧ clampedStart Ta t.start ≤ Ta) ∧
    (∀ v, clampedStop Ta (clampedStart Ta t.start) t.stop = some v →
      clampedStart Ta t.start ≤ v ∧ v ≤ Ta) ∧
    (∀ s e, app_trim_window Ta t = some (s, e) →
      s = clampedStart Ta t.start ∧
        (0 < s ∨ ∃ v, e = some v ∧ v < Ta)) ∧
    (ta > tv → matchAudioToVideo ta tv = (none, tv)) ∧
    (ta < tv → matchAudioToVideo ta tv = (some (⌊tv / ta⌋ + 1), tv) ∧
      tv ≤ ((⌊tv / ta⌋ : ℚ) + 1) * ta) ∧
    (ta = tv → matchAudioToVideo ta tv = (none, ta)) := by
  have hs0 : 0 ≤ clampedStart Ta t.start :=
    le_min (le_max_left 0 t.start) hTa.le
  have hsTa : clampedStart Ta t.start ≤ Ta := min_le_right _ _
  have hTruthy : ∀ o : Option ℚ, stopTruthy o = true ↔
      ∃ v, o = some v ∧ v ≠ 0 := by
    intro o; cases o <;> simp [stopTruthy]
  have hBelow : ∀ o : Option ℚ, stopBelow Ta o = true ↔
      ∃ v, o = some v ∧ v < Ta := by
    intro o; cases o <;> simp [stopBelow]
  refine ⟨⟨hs0, hsTa⟩, ?_, ?_, ?_, ?_, ?_⟩
  · intro v hv
    unfold clampedStop at hv
    rw [Option.map_eq_some'] at hv
    obtain ⟨e, _, he⟩ := hv
    subst he
    exact ⟨le_min (le_max_left _ _) hsTa, min_le_right _ _⟩
  · intro s e h
    unfold app_trim_window at h
    by_cases hcond : (decide (0 < clampedStart Ta t.start) ||
        stopBelow Ta (clampedStop Ta (clampedStart Ta t.start) t.stop)) = true
    · rw [if_pos hcond] at h
      rw [Bool.or_eq_true, decide_eq_true_eq] at hcond
      by_cases htr : stopTruthy
          (clampedStop Ta (clampedStart Ta t.start) t.stop) = true
      · rw [if_pos htr] at h
        injection h with h
        injection h with h1 h2
        subst h1
        refine ⟨rfl, ?_⟩
        rcases hcond with hc | hc
        · exact Or.inl hc
        · obtain ⟨v, hv, hvlt⟩ := (hBelow _).mp hc
          rw [hv] at h2
          exact Or.inr ⟨v, h2.symm, hvlt⟩
      · rw [if_neg htr] at h
        by_cases hsp : 0 < clampedStart Ta t.start
        · rw [if_pos hsp] at h
          injection h with h
          injection h with h1 h2
          subst h1
          exact ⟨rfl, Or.inl hsp⟩
        · rw [if_neg hsp] at h; exact absurd h (by simp)
    · rw [if_neg hcond] at h; exact absurd h (by simp)
  · intro h
    unfold matchAudioToVideo
    rw [if_pos h]
  · intro h
    unfold matchAudioToVideo
    rw [if_neg (by exact fun hh => absurd h (not_lt_of_gt hh)), if_pos h]
    refine ⟨rfl, ?_⟩
    have hfl : tv / ta < (⌊tv / ta⌋ : ℚ) + 1 := Int.lt_floor_add_one _
    have := (div_lt_iff₀ hta).mp hfl
    linarith
  · intro h
    subst h
    unfold matchAudioToVideo
    rw [if_neg (lt_irrefl ta), if_neg (lt_irrefl ta)]

/-- Witness for `audio_sync_amended`: a 30s asset, trimmed duration 25s
against an 8s video is truncated to 8s. -/
theorem audio_sync_amended_witness :
    (0 : ℚ) < 30 ∧ (0 : ℚ) < 25 ∧ (0 : ℚ) < 8 ∧
      matchAudioToVideo 25 8 = (none, 8) :=
  ⟨by norm_num, by norm_num, by norm_num,
    (audio_sync_amended 30 25 8 ⟨5, some 30⟩ (by norm_num) (by norm_num)
      (by norm_num)).2.2.2.1 (by norm_num)⟩

/-! ## Submission validation (C9)

`generate_video` (app.py:583-661), in source order:

    duration_per_image = float(data.get('duration', 2))   # line 594 — BEFORE any guard
    job_id = str(uuid.uuid4())
    if not session_id or not is_valid_uuid(session_id): ... 400
    if audio_id and not is_valid_uuid(audio_id): ... 400
    try:
        duration_per_image = float(duration_per_image)    # can no longer fail
        if duration_per_image < 0.5 or duration_per_image > 10: ... 400
    except (ValueError, TypeError): ... 400               # dead code
    if resolution not in valid_resolutions: ... 400
    if not os.path.exists(session_folder): ... 404
    if not image_files: ... 400
    enqueue / run sync

The `float()` at line 594 raises an uncaught `ValueError` for a
non-numeric duration (HTTP 500), because the guarded conversion inside
the `try` block re-converts an already-converted float; the
`except (ValueError, TypeError)` arm that was written to return the
400 "Invalid duration value" is unreachable. -/

/-- The caller-supplied `duration` field: a number, or a value
`float()` rejects (non-numeric string, `None`, …). -/
inductive DurationInput where
  | num (q : ℚ)
  | notNum
  deriving DecidableEq

/-- A submission body and the relevant session state. -/
structure SubmitRequest where
  session_id : Option PyStr
  audio_id : Option PyStr
  duration : DurationInput
  resolution : String
  sessionExists : Bool
  imageCount : ℕ

/-- Outcome of `generate_video` before/at job creation. -/
inductive SubmitOutcome where
  | crash
  | invalid
  | notFound
  | jobCreated
  deriving DecidableEq

/-- The resolution whitelist (app.py:618-621). -/
def valid_resolutions : List String :=
  ["640x480", "854x480", "1280x720", "1920x1080", "2560x1440", "3840x2160",
   "480x640", "480x854", "720x1280", "1080x1920", "1440x2560", "2160x3840"]

/-- Model of `generate_video` (app.py:583-661).  `crash` models the uncaught
exception escaping line 594; `invalid` an immediate 400; `notFound`
the 404; `jobCreated` reaching the enqueue / inline-run with a fresh
`job_id`. -/
def generate_video (req : SubmitRequest) : SubmitOutcome :=
  match req.duration with
  | .notNum => .crash
  | .num d =>
    match req.session_id with
    | none => .invalid
    | some sid =>
      if is_valid_uuid sid = false then .invalid
      else if (match req.audio_id with
               | some a => !(is_valid_uuid a)
               | none => false) then .invalid
      else if d < mkRat 1 2 ∨ 10 < d then .invalid
      else if valid_resolutions.contains req.resolution = false then .invalid
      else if req.sessionExists = false then .notFound
      else if req.imageCount = 0 then .invalid
      else .jobCreated

/-- C9 (code bug).  With every other field valid, a non-numeric
`duration` crashes `generate_video` with an uncaught `ValueError`
(HTTP 500) instead of surfacing the intended `Invalid duration value`
validation error, because the conversion at app.py:594 happens before
the guarded `try` whose `except (ValueError, TypeError)` arm is
consequently dead; no job is created either way.  The remaining
validations behave as the claim states. -/
theorem duration_conversion_crash :
    generate_video
        ⟨some ("aaaaaaaa-aaaa-aaaa-aaaa-aaaaaaaaaaaa".data), none,
          .notNum, "1280x720", true, 3⟩ = .crash ∧
    generate_video
        ⟨some ("aaaaaaaa-aaaa-aaaa-aaaa-aaaaaaaaaaaa".data), none,
          .notNum, "1280x720", true, 3⟩ ≠ .invalid ∧
    generate_video
        ⟨some ("aaaaaaaa-aaaa-aaaa-aaaa-aaaaaaaaaaaa".data), none,
          .num 2, "1280x720", true, 3⟩ = .jobCreated ∧
    generate_video
        ⟨some ("aaaaaaaa-aaaa-aaaa-aaaa-aaaaaaaaaaaa".data), none,
          .num (mkRat 1 4), "1280x720", true, 3⟩ = .invalid ∧
    generate_video
        ⟨some ("aaaaaaaa-aaaa-aaaa-aaaa-aaaaaaaaaaaa".data), none,
          .num 11, "1280x720", true, 3⟩ = .invalid ∧
    generate_video
        ⟨some ("aaaaaaaa-aaaa-aaaa-aaaa-aaaaaaaaaaaa".data), none,
          .num 2, "1281x720", true, 3⟩ = .invalid ∧
    generate_video
        ⟨some ("not-a-uuid".data), none, .num 2, "1280x720", true, 3⟩
      = .invalid ∧
    generate_video
        ⟨some ("aaaaaaaa-aaaa-aaaa-aaaa-aaaaaaaaaaaa".data), none,
          .num 2, "1280x720", false, 3⟩ = .notFound ∧
    generate_video
        ⟨some ("aaaaaaaa-aaaa-aaaa-aaaa-aaaaaaaaaaaa".data), none,
          .num 2, "1280x720", true, 0⟩ = .invalid := by
  refine ⟨rfl, by decide, ?_, ?_, ?_, ?_, ?_, ?_, ?_⟩ <;> decide

/-! ## Progress publication traces (C8)

`update_progress(job_id, stage, progress, message)` writes one record;
the sequence of calls a single run makes is its trace.

`generate_video_job` (tasks.py:103-298): initializing 5; error 0 and
return when no images; processing 10; per image `10 + int((idx/total)*50)`
(published before the image is opened, so also for images that later
fail); return with NO further publication when zero clips survive;
concatenating 60; audio 70 when an `audio_id` is present; encoding 75;
completed 100 — or, when anything raises (e.g. the encoder), the outer
`except` publishes error 0 (tasks.py:289-298).

`generate_video_sync` (app.py:669-958): initializing 0; error 0 when no
images; processing 10; the same per-image values, but an unreadable
image raises after its per-image record and the outer handler publishes
error 0 (app.py:942-948); concatenating 60; audio 65; encoding 75;
completed 100, or error 0 from the outer handler. -/

inductive Stage where
  | initializing
  | processing
  | concatenating
  | audio
  | encoding
  | completed
  | error
  deriving DecidableEq

/-- Whether a stage (`completed` or `error`) is terminal. -/
def isTerminal (s : Stage) : Bool :=
  match s with
  | .completed => true
  | .error => true
  | _ => false

/-- Progress `10 + int((idx / total) * 50)` for image index `i` of `n`. -/
def perImageProgress (n i : ℕ) : ℕ := 10 + i * 50 / n

/-- The per-image progress records for the first `k` images of `n`. -/
def perImageTrace (n k : ℕ) : List (Stage × ℕ) :=
  (List.range k).map (fun i => (Stage.processing, perImageProgress n i))

/-- The non-terminal tail of the queued trace: concatenating 60,
optional audio 70, encoding 75. -/
def tasksMid (audio : Bool) : List (Stage × ℕ) :=
  (Stage.concatenating, 60) ::
    ((if audio then [(Stage.audio, 70)] else []) ++ [(Stage.encoding, 75)])

/-- The non-terminal tail of the inline trace (audio stage publishes
65, app.py:790). -/
def appMid (audio : Bool) : List (Stage × ℕ) :=
  (Stage.concatenating, 60) ::
    ((if audio then [(Stage.audio, 65)] else []) ++ [(Stage.encoding, 75)])

/-- The terminal record of a run that reaches the encoder. -/
def finalRecord (encodeOk : Bool) : Stage × ℕ :=
  if encodeOk then (Stage.completed, 100) else (Stage.error, 0)

/-- The publication trace of one run of `generate_video_job`
(tasks.py).  `anySurvived = false` models the zero-clips return path
(which publishes nothing more); `encodeOk = false` models an exception
in the encode step reaching the outer handler. -/
def tasks_trace (n : ℕ) (anySurvived audio encodeOk : Bool) :
    List (Stage × ℕ) :=
  if n = 0 then [(Stage.initializing, 5), (Stage.error, 0)]
  else
    ((Stage.initializing, 5) :: (Stage.processing, 10) ::
      (perImageTrace n n ++ (if anySurvived then tasksMid audio else []))) ++
      (if anySurvived then [finalRecord encodeOk] else [])

/-- The publication trace of one run of `generate_video_sync` (app.py).
`firstCorrupt = some k` models an unreadable image at index `k`: its
per-image record is published, the decode raises, and the outer
handler publishes error 0. -/
def app_sync_trace (n : ℕ) (firstCorrupt : Option ℕ)
    (audio encodeOk : Bool) : List (Stage × ℕ) :=
  if n = 0 then [(Stage.initializing, 0), (Stage.error, 0)]
  else
    match firstCorrupt with
    | some k =>
      ((Stage.initializing, 0) :: (Stage.processing, 10) ::
        perImageTrace n (k + 1)) ++ [(Stage.error, 0)]
    | none =>
      ((Stage.initializing, 0) :: (Stage.processing, 10) ::
        (perImageTrace n n ++ appMid audio)) ++ [finalRecord encodeOk]

/-- The amended trace property: a terminal record can only sit at the
very end of the trace, and every adjacent pair is either
non-decreasing in progress or steps into a terminal record. -/
def okTrace (t : List (Stage × ℕ)) : Prop :=
  (∀ i (h : i < t.length), isTerminal (t.get ⟨i, h⟩).1 = true →
    i + 1 = t.length) ∧
  List.Chain' (fun a b => isTerminal b.1 = true ∨ a.2 ≤ b.2) t

theorem okTrace_of_decomp (A B : List (Stage × ℕ))
    (hmem : ∀ p ∈ A, isTerminal p.1 = false)
    (hchain : List.Chain' (fun a b : Stage × ℕ => a.2 ≤ b.2) A)
    (hB : B = [] ∨ ∃ p, isTerminal p.1 = true ∧ B = [p]) :
    okTrace (A ++ B) := by
  constructor
  · intro i h hterm
    rcases hB with rfl | ⟨p, hp, rfl⟩
    · have hm := List.get_mem (A ++ []) i h
      have hm' : (A ++ []).get ⟨i, h⟩ ∈ A := by
        rcases List.mem_append.mp hm with h' | h'
        · exact h'
        · simp at h'
      have := hmem _ hm'
      rw [this] at hterm
      simp at hterm
    · by_cases hi : i < A.length
      · have he : (A ++ [p]).get ⟨i, h⟩ = A.get ⟨i, hi⟩ := by
          simp only [List.get_eq_getElem]
          exact List.getElem_append_left hi
        rw [he] at hterm
        have := hmem _ (List.get_mem A i hi)
        rw [this] at hterm
        simp at hterm
      · have hlen : (A ++ [p]).length = A.length + 1 := by simp
        omega
  · rcases hB with rfl | ⟨p, hp, rfl⟩
    · rw [List.append_nil]
      exact hchain.imp fun a b hab => Or.inr hab
    · refine List.Chain'.append (hchain.imp fun a b hab => Or.inr hab)
        (List.chain'_singleton p) ?_
      intro x _ y hy
      simp at hy
      subst hy
      exact Or.inl hp

theorem perImageTrace_mem (n k : ℕ) :
    ∀ p ∈ perImageTrace n k, p.1 = Stage.processing := by
  intro p hp
  simp only [perImageTrace, List.mem_map, List.mem_range] at hp
  obtain ⟨i, _, rfl⟩ := hp
  rfl

theorem perImageProgress_mono (n : ℕ) {i j : ℕ} (h : i ≤ j) :
    perImageProgress n i ≤ perImageProgress n j := by
  unfold perImageProgress
  have := Nat.div_le_div_right (c := n) (Nat.mul_le_mul_right 50 h)
  omega

theorem perImageTrace_chain (n k : ℕ) :
    List.Chain' (fun a b : Stage × ℕ => a.2 ≤ b.2) (perImageTrace n k) := by
  unfold perImageTrace
  rw [List.chain'_map]
  refine List.Pairwise.chain' ?_
  refine (List.pairwise_lt_range k).imp ?_
  intro a b hab
  exact perImageProgress_mono n (Nat.le_of_lt hab)

theorem perImageTrace_ne_nil (n k : ℕ) (hk : 0 < k) :
    perImageTrace n k ≠ [] := by
  unfold perImageTrace
  simp [List.range_eq_nil]
  omega

theorem perImageTrace_head (n k : ℕ) (hk : 0 < k) :
    (perImageTrace n k).head? = some (Stage.processing, 10) := by
  rcases k with _ | k
  · omega
  · simp [perImageTrace, List.range_succ_eq_map, perImageProgress]

theorem perImageTrace_last (n k : ℕ) (hk : 0 < k) :
    (perImageTrace n k).getLast? =
      some (Stage.processing, perImageProgress n (k - 1)) := by
  rcases k with _ | k
  · omega
  · unfold perImageTrace
    rw [List.range_succ, List.map_append]
    simp

theorem perImageProgress_le (n i : ℕ) (h : i ≤ n) :
    perImageProgress n i ≤ 60 := by
  unfold perImageProgress
  have h2 : i * 50 ≤ n * 50 := Nat.mul_le_mul_right 50 h
  have h3 : i * 50 / n ≤ 50 := Nat.div_le_of_le_mul h2
  omega

theorem tasksMid_chain (audio : Bool) :
    List.Chain' (fun a b : Stage × ℕ => a.2 ≤ b.2) (tasksMid audio) := by
  cases audio
  · exact List.chain'_pair.mpr (by omega)
  · exact List.chain'_cons.mpr ⟨by omega, List.chain'_pair.mpr (by omega)⟩

theorem appMid_chain (audio : Bool) :
    List.Chain' (fun a b : Stage × ℕ => a.2 ≤ b.2) (appMid audio) := by
  cases audio
  · exact List.chain'_pair.mpr (by omega)
  · exact List.chain'_cons.mpr ⟨by omega, List.chain'_pair.mpr (by omega)⟩

theorem tasksMid_mem (audio : Bool) :
    ∀ p ∈ tasksMid audio, isTerminal p.1 = false := by
  cases audio <;> intro p hp <;> simp [tasksMid] at hp <;>
    rcases hp with rfl | rfl | rfl <;> rfl

theorem appMid_mem (audio : Bool) :
    ∀ p ∈ appMid audio, isTerminal p.1 = false := by
  cases audio <;> intro p hp <;> simp [appMid] at hp <;>
    rcases hp with rfl | rfl | rfl <;> rfl

theorem finalRecord_terminal (encodeOk : Bool) :
    isTerminal (finalRecord encodeOk).1 = true := by
  cases encodeOk <;> rfl

/-- C8 (counterexample).  A queued run of two images whose encode step
fails publishes, in order, progress 5, 10, 10, 35, 60, 75 and then the
terminal record `(error, 0)` — a record with progress 0 published
after the run had already published progress 75 > 0, refuting the
claim that a run that has published progress above 0 never subsequently
publishes a lower progress value. -/
theorem error_progress_reset_counterexample :
    tasks_trace 2 true false false =
      [(Stage.initializing, 5), (Stage.processing, 10),
       (Stage.processing, 10), (Stage.processing, 35),
       (Stage.concatenating, 60), (Stage.encoding, 75),
       (Stage.error, 0)] ∧
    (tasks_trace 2 true false false).getLast? = some (Stage.error, 0) ∧
    (Stage.encoding, 75) ∈ tasks_trace 2 true false false ∧
    (0 : ℕ) < 75 := by
  refine ⟨by decide, by decide, by decide, by decide⟩

/-- C8 (amended).  In every run of either strategy, a terminal record
(`completed` or `error`) is only ever the last record published, and
every step between consecutive records either does not decrease the
progress value or is the step into the terminal record — the terminal
`error` record carries progress 0, which may be lower than previously
published progress. -/
theorem trace_order_amended (n : ℕ) (anySurvived audio encodeOk : Bool)
    (firstCorrupt : Option ℕ) :
    okTrace (tasks_trace n anySurvived audio encodeOk) ∧
    okTrace (app_sync_trace n firstCorrupt audio encodeOk) := by
  constructor
  · unfold tasks_trace
    by_cases hn : n = 0
    · rw [if_pos hn]
      refine okTrace_of_decomp [(Stage.initializing, 5)] [(Stage.error, 0)]
        ?_ (List.chain'_singleton _) (Or.inr ⟨(Stage.error, 0), rfl, rfl⟩)
      intro p hp
      simp at hp
      subst hp
      rfl
    · rw [if_neg hn]
      have hn' : 0 < n := Nat.pos_of_ne_zero hn
      refine okTrace_of_decomp _ _ ?_ ?_ ?_
      · intro p hp
        simp only [List.mem_cons] at hp
        rcases hp with rfl | rfl | hp
        · rfl
        · rfl
        · rcases List.mem_append.mp hp with hp | hp
          · rw [perImageTrace_mem n n p hp]; rfl
          · rcases haud : anySurvived with _ | _
            · rw [haud] at hp; simp at hp
            · rw [haud] at hp; simp only [if_pos rfl] at hp
              exact tasksMid_mem audio p hp
      · refine List.chain'_cons.mpr ⟨by omega, ?_⟩
        refine List.chain'_cons'.mpr ⟨?_, ?_⟩
        · intro y hy
          rw [head?_append_ne_nil _ _ (perImageTrace_ne_nil n n hn'),
            perImageTrace_head n n hn'] at hy
          simp at hy
          subst hy
          omega
        · refine List.Chain'.append (perImageTrace_chain n n) ?_ ?_
          · cases anySurvived
            · simp
            · simp only [if_pos rfl]
              exact tasksMid_chain audio
          · intro x hx y hy
            rw [perImageTrace_last n n hn'] at hx
            simp at hx
            subst hx
            cases anySurvived
            · simp at hy
            · simp only [if_pos rfl, tasksMid] at hy
              simp at hy
              subst hy
              simp only
              exact perImageProgress_le n (n - 1) (by omega)
      · cases anySurvived
        · simp
        · simp only [if_pos rfl]
          exact Or.inr ⟨_, finalRecord_terminal encodeOk, rfl⟩
  · unfold app_sync_trace
    by_cases hn : n = 0
    · rw [if_pos hn]
      refine okTrace_of_decomp [(Stage.initializing, 0)] [(Stage.error, 0)]
        ?_ (List.chain'_singleton _) (Or.inr ⟨(Stage.error, 0), rfl, rfl⟩)
      intro p hp
      simp at hp
      subst hp
      rfl
    · rw [if_neg hn]
      have hn' : 0 < n := Nat.pos_of_ne_zero hn
      rcases firstCorrupt with _ | k
      · refine okTrace_of_decomp _ _ ?_ ?_
          (Or.inr ⟨_, finalRecord_terminal encodeOk, rfl⟩)
        · intro p hp
          simp only [List.mem_cons] at hp
          rcases hp with rfl | rfl | hp
          · rfl
          · rfl
          · rcases List.mem_append.mp hp with hp | hp
            · rw [perImageTrace_mem n n p hp]; rfl
            · exact appMid_mem audio p hp
        · refine List.chain'_cons.mpr ⟨by omega, ?_⟩
          refine List.chain'_cons'.mpr ⟨?_, ?_⟩
          · intro y hy
            rw [head?_append_ne_nil _ _ (perImageTrace_ne_nil n n hn'),
              perImageTrace_head n n hn'] at hy
            simp at hy
            subst hy
            omega
          · refine List.Chain'.append (perImageTrace_chain n n)
              (appMid_chain audio) ?_
            intro x hx y hy
            rw [perImageTrace_last n n hn'] at hx
            simp at hx
            subst hx
            simp only [appMid] at hy
            simp at hy
            subst hy
            simp only
            exact perImageProgress_le n (n - 1) (by omega)
      · refine okTrace_of_decomp _ _ ?_ ?_ (Or.inr ⟨(Stage.error, 0), rfl, rfl⟩)
        · intro p hp
          simp only [List.mem_cons] at hp
          rcases hp with rfl | rfl | hp
          · rfl
          · rfl
          · rw [perImageTrace_mem n (k + 1) p hp]; rfl
        · refine List.chain'_cons.mpr ⟨by omega, ?_⟩
          refine List.chain'_cons'.mpr ⟨?_, perImageTrace_chain n (k + 1)⟩
          intro y hy
          rw [perImageTrace_head n (k + 1) (by omega)] at hy
          simp at hy
          subst hy
          omega

end SimVid
